import Mathlib

/-!
Verification of the distance-bounded GPX partitioner (`src/main.rs`).

The development shallowly embeds the program's core:
* `Waypoint`, `TrackSegment`, `Track`, `Gpx` — the data model;
* `chunkLoop` — the `while let` loop inside `LimitDistance::next`;
* `LimitDistance.next` — one pull of the `LimitDistance` iterator;
* `runFuel` / `LimitDistance.run` — driving the iterator to exhaustion;
* `get_track`, `get_segment` — route-structure accessors;
* `mainLoopFuel` / `runMain` — the `main` output loop with
  `File::create_new` semantics and `format!("{}_{:02}.gpx", ..)` names.

Distances in the source are `f64` results of a geodesic formula that can
fail (`Result<f64>`); the embedding abstracts the formula as a fallible
function `DistFn := Waypoint → Waypoint → Option ℤ`, exact arithmetic
standing in for floating point, and keeps the error path explicit.
-/

/-- A GPX waypoint: geographic coordinates plus opaque auxiliary data
(elevation, time, name, ...) that the program never inspects. -/
structure Waypoint where
  lat : ℤ
  lon : ℤ
  aux : ℕ
deriving DecidableEq, Repr

/-- The distance computation between two waypoints (`distance` in the
source): it may fail, in which case it yields `none`. -/
def DistFn : Type := Waypoint → Waypoint → Option ℤ

/-- A GPX track segment: an ordered sequence of waypoints. -/
structure TrackSegment where
  points : List Waypoint
deriving DecidableEq, Repr

/-- A GPX track: an optional name and a sequence of segments. -/
structure Track where
  name : Option String
  segments : List TrackSegment
deriving DecidableEq, Repr

/-- A GPX document: a sequence of tracks. -/
structure Gpx where
  tracks : List Track
deriving DecidableEq, Repr

/-- `get_track` from the source: track 0, or the structure error message. -/
def get_track (gpx : Gpx) : Except String Track :=
  match gpx.tracks.head? with
  | none => Except.error "gpx file missing track 0"
  | some t => Except.ok t

/-- `get_segment` from the source: segment 0 of track 0, or the structure
error message. -/
def get_segment (gpx : Gpx) : Except String TrackSegment :=
  match get_track gpx with
  | Except.error e => Except.error e
  | Except.ok t =>
    match t.segments.head? with
    | none => Except.error "gpx track 0 missing segment 0"
    | some s => Except.ok s

/-- The state of the `LimitDistance` iterator: the remaining upstream
waypoints, the distance budget, and the carried-over last waypoint of the
previously produced chunk. -/
structure LimitDistance where
  waypoints : List Waypoint
  meters_per_file : ℤ
  prev_last : Option Waypoint
deriving DecidableEq, Repr

/-- The `while let Some(waypoint) = self.waypoints.next()` loop of
`LimitDistance::next`: `rest` is the upstream iterator, `acc` the
`accumulated_meters`, `prev` the current last element of `chunk`
(`accumulated_waypoints`).  Returns the loop's outcome (the finished chunk,
or a distance error) together with the waypoints still unconsumed. -/
def chunkLoop (dist : DistFn) (meters_per_file : ℤ) :
    List Waypoint → ℤ → Waypoint → List Waypoint →
    Except Unit (List Waypoint) × List Waypoint
  | [], _, _, chunk => (Except.ok chunk, [])
  | waypoint :: rest, acc, prev, chunk =>
    match dist prev waypoint with
    | none => (Except.error (), rest)
    | some d =>
      if meters_per_file < acc + d then (Except.ok (chunk ++ [waypoint]), rest)
      else chunkLoop dist meters_per_file rest (acc + d) waypoint (chunk ++ [waypoint])

/-- One pull of the `LimitDistance` iterator (`LimitDistance::next`):
`none` signals end of sequence; otherwise the item is either a chunk or a
propagated distance error, paired with the successor state. -/
def LimitDistance.next (dist : DistFn) (s : LimitDistance) :
    Option (Except Unit (List Waypoint)) × LimitDistance :=
  match s.waypoints with
  | [] => (none, s)
  | first :: rest =>
    match s.prev_last with
    | some prev_last =>
      match dist prev_last first with
      | none => (some (Except.error ()),
          { waypoints := rest, meters_per_file := s.meters_per_file, prev_last := none })
      | some d =>
        match chunkLoop dist s.meters_per_file rest d first [prev_last, first] with
        | (Except.error e, rem) => (some (Except.error e),
            { waypoints := rem, meters_per_file := s.meters_per_file, prev_last := none })
        | (Except.ok chunk, rem) => (some (Except.ok chunk),
            { waypoints := rem, meters_per_file := s.meters_per_file,
              prev_last := chunk.getLast? })
    | none =>
      match chunkLoop dist s.meters_per_file rest 0 first [first] with
      | (Except.error e, rem) => (some (Except.error e),
          { waypoints := rem, meters_per_file := s.meters_per_file, prev_last := none })
      | (Except.ok chunk, rem) => (some (Except.ok chunk),
          { waypoints := rem, meters_per_file := s.meters_per_file,
            prev_last := chunk.getLast? })

/-- Driving the iterator: collect the chunks of up to `fuel` pulls,
stopping at end of sequence and propagating the first error.  Since every
pull consumes at least one upstream waypoint, `fuel := s.waypoints.length`
is always enough (`LimitDistance.run`). -/
def runFuel (dist : DistFn) : ℕ → LimitDistance → Except Unit (List (List Waypoint))
  | 0, _ => Except.ok []
  | fuel + 1, s =>
    match s.next dist with
    | (none, _) => Except.ok []
    | (some (Except.error e), _) => Except.error e
    | (some (Except.ok chunk), s1) =>
      match runFuel dist fuel s1 with
      | Except.error e => Except.error e
      | Except.ok chunks => Except.ok (chunk :: chunks)

/-- All chunks produced by the iterator from state `s`, or the first
error. -/
def LimitDistance.run (dist : DistFn) (s : LimitDistance) :
    Except Unit (List (List Waypoint)) :=
  runFuel dist s.waypoints.length s

/-- The accumulated path length of a waypoint list: the sum of the
consecutive inter-waypoint distances, `none` if any of them fails. -/
def pathDist (dist : DistFn) : List Waypoint → Option ℤ
  | [] => some 0
  | [_] => some 0
  | a :: b :: l =>
    match dist a b, pathDist dist (b :: l) with
    | some d, some q => some (d + q)
    | _, _ => none

/-- Concatenate chunks, dropping once, from every chunk after the first,
the duplicated boundary waypoint it starts with. -/
def concatDedup : List (List Waypoint) → List Waypoint
  | [] => []
  | c :: cs => c ++ (cs.map List.tail).flatten

/-- Like `concatDedup`, for a run that starts with a carried-over previous
waypoint: then every chunk (the first included) begins with a duplicate. -/
def tailJoin : Option Waypoint → List (List Waypoint) → List Waypoint
  | none, cs => concatDedup cs
  | some _, cs => (cs.map List.tail).flatten

/-- The boundary-sharing chain: every chunk after the first begins with the
previous chunk's last waypoint; if a carried-over waypoint is given, the
first chunk begins with it. -/
def chainOk : Option Waypoint → List (List Waypoint) → Prop
  | _, [] => True
  | none, c :: cs => chainOk c.getLast? cs
  | some p, c :: cs => c.head? = some p ∧ chainOk c.getLast? cs

/-- The number of seed waypoints of chunk `i`: a run with no carried-over
waypoint seeds its first chunk with one waypoint, every other chunk with
the boundary pair. -/
def seedLen : Option Waypoint → ℕ → ℕ
  | none, 0 => 1
  | none, _ + 1 => 2
  | some _, _ => 2

/-- The seed of a chunk before the accumulation loop runs: the carried-over
boundary pair `[prev_last, first]`, or just `[first]` for the first chunk
of the run. -/
def seedOf : Option Waypoint → Waypoint → List Waypoint
  | some p, first => [p, first]
  | none, first => [first]

/-- `{:02}` formatting of a natural number: zero-padded to width at least
two. -/
def pad2 (n : ℕ) : String :=
  if n < 10 then "0" ++ toString n else toString n

/-- The output filename of the source: `format!("{}_{:02}.gpx", basename, n)`. -/
def fname (basename : String) (n : ℕ) : String :=
  basename ++ "_" ++ pad2 n ++ ".gpx"

/-- The `for (index, subsequence) in subsequences.enumerate()` loop of
`main`: writes each chunk to `fname basename (index + 1)`, failing if the
file already exists (`File::create_new`) or if the pull yielded a distance
error.  The filesystem is a list of (name, contents) pairs; `fuel` bounds
the number of pulls as in `runFuel`. -/
def mainLoopFuel (dist : DistFn) (basename : String) :
    ℕ → ℕ → List (String × List Waypoint) → LimitDistance →
    Option String × List (String × List Waypoint)
  | 0, _, fs, _ => (none, fs)
  | fuel + 1, index, fs, s =>
    match s.next dist with
    | (none, _) => (none, fs)
    | (some (Except.error _), _) => (some "distance error", fs)
    | (some (Except.ok chunk), s1) =>
      let name := fname basename (index + 1)
      if name ∈ fs.map Prod.fst then
        (some ("failed to create file " ++ name), fs)
      else
        mainLoopFuel dist basename fuel (index + 1) (fs ++ [(name, chunk)]) s1

/-- The whole of `main` after argument parsing and reading: fetch segment 0
of track 0 (a hard error if missing, before any partitioning or output),
then partition its waypoints and write the numbered files.  Returns the
error, if any, and the final filesystem (initially `fs0`). -/
def runMain (dist : DistFn) (gpx : Gpx) (basename : String) (meters_per_file : ℤ)
    (fs0 : List (String × List Waypoint)) :
    Option String × List (String × List Waypoint) :=
  match get_segment gpx with
  | Except.error e => (some e, fs0)
  | Except.ok seg =>
    mainLoopFuel dist basename seg.points.length 0 fs0
      { waypoints := seg.points, meters_per_file := meters_per_file, prev_last := none }

deriving instance DecidableEq for Except

/-- A concrete waypoint for evaluating the development. -/
def wA : Waypoint := ⟨0, 0, 0⟩

/-- A concrete waypoint for evaluating the development. -/
def wB : Waypoint := ⟨0, 1, 1⟩

/-- A concrete waypoint for evaluating the development. -/
def wC : Waypoint := ⟨0, 2, 2⟩

/-- A concrete waypoint for evaluating the development. -/
def wD : Waypoint := ⟨0, 3, 3⟩

/-- A total distance function: every pair of waypoints is one meter apart. -/
def distOne : DistFn := fun _ _ => some 1

/-- An always-failing distance function. -/
def distNone : DistFn := fun _ _ => none

/-- A distance function that fails exactly on the edge from `wB` to `wC`
and is one meter everywhere else. -/
def distCut : DistFn := fun a b => if a = wB ∧ b = wC then none else some 1

lemma pathDist_singleton (dist : DistFn) (w : Waypoint) : pathDist dist [w] = some 0 := rfl

lemma pathDist_pair (dist : DistFn) (a b : Waypoint) (d : ℤ) (h : dist a b = some d) :
    pathDist dist [a, b] = some d := by
  simp [pathDist, h]

lemma pathDist_snoc (dist : DistFn) :
    ∀ (l : List Waypoint) (p w : Waypoint) (q d : ℤ),
    l.getLast? = some p → pathDist dist l = some q → dist p w = some d →
    pathDist dist (l ++ [w]) = some (q + d)
  | [], _, _, _, _, hlast, _, _ => by simp at hlast
  | [a], p, w, q, d, hlast, hq, hd => by
    simp only [List.getLast?_singleton, Option.some.injEq] at hlast
    subst hlast
    simp only [pathDist, Option.some.injEq] at hq
    subst hq
    simp [pathDist, hd]
  | a :: b :: l, p, w, q, d, hlast, hq, hd => by
    have hlast2 : (b :: l).getLast? = some p := by
      rw [List.getLast?_cons_cons] at hlast; exact hlast
    cases hab : dist a b with
    | none => simp [pathDist, hab] at hq
    | some dab =>
      cases hbl : pathDist dist (b :: l) with
      | none => simp [pathDist, hab, hbl] at hq
      | some qb =>
        have hrec := pathDist_snoc dist (b :: l) p w qb d hlast2 hbl hd
        simp only [pathDist, hab, hbl, Option.some.injEq] at hq
        rw [List.cons_append] at hrec ⊢
        rw [List.cons_append]
        simp only [pathDist, hab, List.append_eq]
        rw [hrec]
        simp only [Option.some.injEq]
        omega

lemma pathDist_snoc_inv (dist : DistFn) :
    ∀ (l : List Waypoint) (p w : Waypoint) (q : ℤ),
    l.getLast? = some p → pathDist dist (l ++ [w]) = some q →
    ∃ a d, pathDist dist l = some a ∧ dist p w = some d ∧ q = a + d
  | [], _, _, _, hlast, _ => by simp at hlast
  | [x], p, w, q, hlast, hq => by
    simp only [List.getLast?_singleton, Option.some.injEq] at hlast
    subst hlast
    rw [List.singleton_append] at hq
    cases hd : dist x w with
    | none => simp [pathDist, hd] at hq
    | some d =>
      simp only [pathDist, hd, Option.some.injEq] at hq
      exact ⟨0, d, rfl, rfl, by omega⟩
  | x :: y :: l, p, w, q, hlast, hq => by
    have hlast2 : (y :: l).getLast? = some p := by
      rw [List.getLast?_cons_cons] at hlast; exact hlast
    rw [List.cons_append, List.cons_append] at hq
    cases hxy : dist x y with
    | none => simp [pathDist, hxy] at hq
    | some dxy =>
      cases hrest : pathDist dist (y :: (l ++ [w])) with
      | none => simp [pathDist, hxy, hrest] at hq
      | some q2 =>
        simp only [pathDist, hxy, hrest, Option.some.injEq] at hq
        obtain ⟨a2, d, ha2, hd, hq2⟩ :=
          pathDist_snoc_inv dist (y :: l) p w q2 hlast2 (by rw [List.cons_append]; exact hrest)
        refine ⟨dxy + a2, d, ?_, hd, by omega⟩
        simp [pathDist, hxy, ha2]

lemma chunkLoop_ok (dist : DistFn) (m : ℤ) :
    ∀ (rest : List Waypoint) (acc : ℤ) (prev : Waypoint) (chunk out rem : List Waypoint),
    chunkLoop dist m rest acc prev chunk = (Except.ok out, rem) →
    chunk.getLast? = some prev →
    pathDist dist chunk = some acc →
    ∃ taken q, out = chunk ++ taken ∧ rest = taken ++ rem ∧
      pathDist dist out = some q ∧
      (rem ≠ [] → m < q) ∧
      ∀ j, chunk.length < j → j < out.length →
        ∃ r, pathDist dist (out.take j) = some r ∧ r ≤ m := by
  intro rest
  induction rest with
  | nil =>
    intro acc prev chunk out rem h hlast hacc
    simp only [chunkLoop, Prod.mk.injEq, Except.ok.injEq] at h
    obtain ⟨rfl, rfl⟩ := h
    refine ⟨[], acc, by simp, by simp, hacc, by simp, ?_⟩
    intro j h1 h2
    omega
  | cons wp rest ih =>
    intro acc prev chunk out rem h hlast hacc
    cases hdw : dist prev wp with
    | none => simp [chunkLoop, hdw] at h
    | some d =>
      simp only [chunkLoop, hdw] at h
      have hacc2 : pathDist dist (chunk ++ [wp]) = some (acc + d) :=
        pathDist_snoc dist chunk prev wp acc d hlast hacc hdw
      by_cases hlt : m < acc + d
      · rw [if_pos hlt] at h
        simp only [Prod.mk.injEq, Except.ok.injEq] at h
        obtain ⟨rfl, rfl⟩ := h
        refine ⟨[wp], acc + d, rfl, by simp, hacc2, fun _ => hlt, ?_⟩
        intro j h1 h2
        simp only [List.length_append, List.length_cons, List.length_nil] at h2
        omega
      · rw [if_neg hlt] at h
        have hlast2 : (chunk ++ [wp]).getLast? = some wp := List.getLast?_concat chunk
        obtain ⟨taken, q, hout, hsplit, hpath, hbudget, hpre⟩ :=
          ih (acc + d) wp (chunk ++ [wp]) out rem h hlast2 hacc2
        refine ⟨wp :: taken, q, by simpa using hout, by simp [hsplit], hpath, hbudget, ?_⟩
        intro j h1 h2
        by_cases hj : (chunk ++ [wp]).length < j
        · exact hpre j hj h2
        · have hj2 : j = chunk.length + 1 := by
            simp only [List.length_append, List.length_cons, List.length_nil] at hj ⊢
            omega
          refine ⟨acc + d, ?_, by omega⟩
          have htake : out.take j = chunk ++ [wp] := by
            rw [hout, hj2]
            have : chunk.length + 1 = (chunk ++ [wp]).length := by simp
            rw [this, List.take_left]
          rw [htake]
          exact hacc2

lemma chunkLoop_total (dist : DistFn) (hdist : ∀ a b, (dist a b).isSome) (m : ℤ) :
    ∀ (rest : List Waypoint) (acc : ℤ) (prev : Waypoint) (chunk : List Waypoint),
    ∃ out rem, chunkLoop dist m rest acc prev chunk = (Except.ok out, rem) := by
  intro rest
  induction rest with
  | nil => intro acc prev chunk; exact ⟨chunk, [], rfl⟩
  | cons wp rest ih =>
    intro acc prev chunk
    obtain ⟨d, hd⟩ := Option.isSome_iff_exists.mp (hdist prev wp)
    by_cases hlt : m < acc + d
    · exact ⟨chunk ++ [wp], rest, by simp [chunkLoop, hd, hlt]⟩
    · obtain ⟨out, rem, h⟩ := ih (acc + d) wp (chunk ++ [wp])
      exact ⟨out, rem, by simp [chunkLoop, hd, hlt, h]⟩

lemma chunkLoop_rem_le (dist : DistFn) (m : ℤ) :
    ∀ (rest : List Waypoint) (acc : ℤ) (prev : Waypoint) (chunk : List Waypoint),
    ((chunkLoop dist m rest acc prev chunk).2).length ≤ rest.length := by
  intro rest
  induction rest with
  | nil => intro acc prev chunk; simp [chunkLoop]
  | cons wp rest ih =>
    intro acc prev chunk
    cases hdw : dist prev wp with
    | none => simp [chunkLoop, hdw]
    | some d =>
      by_cases hlt : m < acc + d
      · simp [chunkLoop, hdw, hlt]
      · simp only [chunkLoop, hdw, hlt, if_false]
        exact le_trans (ih (acc + d) wp (chunk ++ [wp])) (by simp)

lemma chunkLoop_fails (dist : DistFn) (m : ℤ) :
    ∀ (taken : List Waypoint) (w : Waypoint) (rem : List Waypoint)
      (acc : ℤ) (prev : Waypoint) (chunk : List Waypoint) (plast : Waypoint),
    chunk.getLast? = some prev →
    pathDist dist chunk = some acc →
    (∀ j, chunk.length < j → j ≤ (chunk ++ taken).length →
      ∃ q, pathDist dist ((chunk ++ taken).take j) = some q ∧ q ≤ m) →
    (chunk ++ taken).getLast? = some plast →
    dist plast w = none →
    chunkLoop dist m (taken ++ w :: rem) acc prev chunk = (Except.error (), rem) := by
  intro taken
  induction taken with
  | nil =>
    intro w rem acc prev chunk plast hlast hacc hpre hplast hfail
    simp only [List.append_nil] at hplast
    rw [hlast] at hplast
    obtain rfl : prev = plast := Option.some.inj hplast
    simp [chunkLoop, hfail]
  | cons t taken ih =>
    intro w rem acc prev chunk plast hlast hacc hpre hplast hfail
    have htake : (chunk ++ t :: taken).take (chunk.length + 1) = chunk ++ [t] := by
      have h1 : chunk ++ t :: taken = (chunk ++ [t]) ++ taken := by simp
      have h2 : chunk.length + 1 = (chunk ++ [t]).length := by simp
      rw [h1, h2, List.take_left]
    obtain ⟨q1, hq1, hq1le⟩ := hpre (chunk.length + 1) (by omega) (by simp)
    rw [htake] at hq1
    obtain ⟨a, d, ha, hd, hqad⟩ := pathDist_snoc_inv dist chunk prev t q1 hlast hq1
    obtain rfl : a = acc := by rw [hacc] at ha; exact (Option.some.inj ha).symm
    have hnb : ¬ m < a + d := by omega
    have hassoc : (chunk ++ [t]) ++ taken = chunk ++ t :: taken := by simp
    have hrec := ih w rem (a + d) t (chunk ++ [t]) plast (List.getLast?_concat chunk)
      (pathDist_snoc dist chunk prev t a d hlast hacc hd)
      (fun j hj1 hj2 => by
        rw [hassoc]
        refine hpre j ?_ ?_
        · simp only [List.length_append, List.length_cons, List.length_nil] at hj1
          omega
        · simp only [List.length_append, List.length_cons, List.length_nil] at hj2 ⊢
          omega)
      (by rw [hassoc]; exact hplast)
      hfail
    show chunkLoop dist m (t :: (taken ++ w :: rem)) a prev chunk = (Except.error (), rem)
    simp only [chunkLoop, hd]
    rw [if_neg hnb]
    exact hrec

lemma seedLen_some (p : Waypoint) (i : ℕ) : seedLen (some p) i = 2 := by
  cases i <;> rfl

lemma next_consumes (dist : DistFn) (s s1 : LimitDistance) (r : Except Unit (List Waypoint))
    (h : s.next dist = (some r, s1)) : s1.waypoints.length < s.waypoints.length := by
  obtain ⟨ws, m, prev⟩ := s
  cases ws with
  | nil => simp [LimitDistance.next] at h
  | cons first rest =>
    cases prev with
    | some p =>
      cases hd : dist p first with
      | none =>
        simp only [LimitDistance.next, hd, Prod.mk.injEq] at h
        obtain ⟨-, rfl⟩ := h
        simp
      | some d =>
        have hrem := chunkLoop_rem_le dist m rest d first [p, first]
        cases hloop : chunkLoop dist m rest d first [p, first] with
        | mk res rem =>
          rw [hloop] at hrem
          cases res with
          | error e =>
            simp only [LimitDistance.next, hd, hloop, Prod.mk.injEq] at h
            obtain ⟨-, rfl⟩ := h
            simp at hrem ⊢
            omega
          | ok c =>
            simp only [LimitDistance.next, hd, hloop, Prod.mk.injEq] at h
            obtain ⟨-, rfl⟩ := h
            simp at hrem ⊢
            omega
    | none =>
      have hrem := chunkLoop_rem_le dist m rest 0 first [first]
      cases hloop : chunkLoop dist m rest 0 first [first] with
      | mk res rem =>
        rw [hloop] at hrem
        cases res with
        | error e =>
          simp only [LimitDistance.next, hloop, Prod.mk.injEq] at h
          obtain ⟨-, rfl⟩ := h
          simp at hrem ⊢
          omega
        | ok c =>
          simp only [LimitDistance.next, hloop, Prod.mk.injEq] at h
          obtain ⟨-, rfl⟩ := h
          simp at hrem ⊢
          omega

lemma runFuel_spec (dist : DistFn) (m : ℤ) (hdist : ∀ a b, (dist a b).isSome) :
    ∀ (fuel : ℕ) (ws : List Waypoint) (prev : Option Waypoint), ws.length ≤ fuel →
    ∃ cs, runFuel dist fuel ⟨ws, m, prev⟩ = Except.ok cs ∧
      tailJoin prev cs = ws ∧
      chainOk prev cs ∧
      (ws = [] ↔ cs = []) ∧
      cs.length ≤ ws.length ∧
      (∀ c ∈ cs, c ≠ []) ∧
      (∀ i, i + 1 < cs.length → ∃ q, pathDist dist (cs.getD i []) = some q ∧ m < q) ∧
      (∀ i, i < cs.length → ∀ j, seedLen prev i < j → j < (cs.getD i []).length →
        ∃ q, pathDist dist ((cs.getD i []).take j) = some q ∧ q ≤ m) := by
  intro fuel
  induction fuel with
  | zero =>
    intro ws prev hle
    have hws : ws = [] := List.eq_nil_of_length_eq_zero (Nat.le_zero.mp hle)
    subst hws
    refine ⟨[], rfl, ?_, ?_, by simp, by simp, by simp, by simp, by simp⟩
    · cases prev <;> rfl
    · cases prev <;> trivial
  | succ fuel ih =>
    intro ws prev hle
    cases ws with
    | nil =>
      refine ⟨[], by simp [runFuel, LimitDistance.next], ?_, ?_, by simp, by simp,
        by simp, by simp, by simp⟩
      · cases prev <;> rfl
      · cases prev <;> trivial
    | cons first rest =>
      cases prev with
      | some p =>
        obtain ⟨d, hd⟩ := Option.isSome_iff_exists.mp (hdist p first)
        obtain ⟨out, rem, hloop⟩ := chunkLoop_total dist hdist m rest d first [p, first]
        have hlast0 : ([p, first] : List Waypoint).getLast? = some first := rfl
        have hacc0 : pathDist dist [p, first] = some d := pathDist_pair dist p first d hd
        obtain ⟨taken, q, hout, hsplit, hpath, hbudget, hpre⟩ :=
          chunkLoop_ok dist m rest d first [p, first] out rem hloop hlast0 hacc0
        have houtne : out ≠ [] := by rw [hout]; simp
        obtain ⟨lastOut, hlastOut⟩ :=
          Option.isSome_iff_exists.mp (List.getLast?_isSome.mpr houtne)
        have hremle : rem.length ≤ rest.length := by
          have : rest.length = taken.length + rem.length := by rw [hsplit]; simp
          omega
        simp only [List.length_cons] at hle
        obtain ⟨cs, hrun, htail, hchain, hiff, hlen, hne, hP2, hP4⟩ :=
          ih rem (some lastOut) (by omega)
        have hnext : (⟨first :: rest, m, some p⟩ : LimitDistance).next dist
            = (some (Except.ok out), ⟨rem, m, some lastOut⟩) := by
          simp [LimitDistance.next, hd, hloop, hlastOut]
        simp only [tailJoin] at htail
        refine ⟨out :: cs, ?_, ?_, ?_, ?_, ?_, ?_, ?_, ?_⟩
        · simp only [runFuel, hnext, hrun]
        · simp only [tailJoin, List.map_cons, List.flatten_cons, htail, hout]
          simp [hsplit]
        · simp only [chainOk, hlastOut]
          exact ⟨by rw [hout]; rfl, hchain⟩
        · simp
        · simp only [List.length_cons]
          omega
        · intro c hc
          rcases List.mem_cons.mp hc with hc | hc
          · rw [hc]; exact houtne
          · exact hne c hc
        · intro i hi
          cases i with
          | zero =>
            refine ⟨q, by simpa using hpath, hbudget ?_⟩
            intro hrem
            rw [hrem] at hiff
            simp only [List.length_cons] at hi
            have : cs = [] := hiff.mp rfl
            rw [this] at hi
            simp at hi
          | succ i =>
            simp only [List.getD_cons_succ]
            exact hP2 i (by simpa using hi)
        · intro i hi j hj1 hj2
          cases i with
          | zero =>
            simp only [List.getD_cons_zero] at hj2 ⊢
            refine hpre j ?_ hj2
            simpa [seedLen] using hj1
          | succ i =>
            simp only [List.getD_cons_succ] at hj2 ⊢
            refine hP4 i (by simpa using hi) j ?_ hj2
            rw [seedLen_some]
            rw [seedLen_some] at hj1
            exact hj1
      | none =>
        obtain ⟨out, rem, hloop⟩ := chunkLoop_total dist hdist m rest 0 first [first]
        have hlast0 : ([first] : List Waypoint).getLast? = some first := rfl
        have hacc0 : pathDist dist [first] = some 0 := rfl
        obtain ⟨taken, q, hout, hsplit, hpath, hbudget, hpre⟩ :=
          chunkLoop_ok dist m rest 0 first [first] out rem hloop hlast0 hacc0
        have houtne : out ≠ [] := by rw [hout]; simp
        obtain ⟨lastOut, hlastOut⟩ :=
          Option.isSome_iff_exists.mp (List.getLast?_isSome.mpr houtne)
        have hremle : rem.length ≤ rest.length := by
          have : rest.length = taken.length + rem.length := by rw [hsplit]; simp
          omega
        simp only [List.length_cons] at hle
        obtain ⟨cs, hrun, htail, hchain, hiff, hlen, hne, hP2, hP4⟩ :=
          ih rem (some lastOut) (by omega)
        have hnext : (⟨first :: rest, m, none⟩ : LimitDistance).next dist
            = (some (Except.ok out), ⟨rem, m, some lastOut⟩) := by
          simp [LimitDistance.next, hloop, hlastOut]
        simp only [tailJoin] at htail
        refine ⟨out :: cs, ?_, ?_, ?_, ?_, ?_, ?_, ?_, ?_⟩
        · simp only [runFuel, hnext, hrun]
        · simp only [tailJoin, concatDedup, htail, hout]
          simp [hsplit]
        · simp only [chainOk, hlastOut]
          exact hchain
        · simp
        · simp only [List.length_cons]
          omega
        · intro c hc
          rcases List.mem_cons.mp hc with hc | hc
          · rw [hc]; exact houtne
          · exact hne c hc
        · intro i hi
          cases i with
          | zero =>
            refine ⟨q, by simpa using hpath, hbudget ?_⟩
            intro hrem
            rw [hrem] at hiff
            simp only [List.length_cons] at hi
            have : cs = [] := hiff.mp rfl
            rw [this] at hi
            simp at hi
          | succ i =>
            simp only [List.getD_cons_succ]
            exact hP2 i (by simpa using hi)
        · intro i hi j hj1 hj2
          cases i with
          | zero =>
            simp only [List.getD_cons_zero] at hj2 ⊢
            refine hpre j ?_ hj2
            simpa [seedLen] using hj1
          | succ i =>
            simp only [List.getD_cons_succ] at hj2 ⊢
            refine hP4 i (by simpa using hi) j ?_ hj2
            rw [seedLen_some]
            exact hj1

lemma chainOk_getD :
    ∀ (cs : List (List Waypoint)) (prev : Option Waypoint),
    chainOk prev cs → (∀ c ∈ cs, c ≠ []) →
    ∀ i, i + 1 < cs.length →
    (cs.getD (i + 1) []).head? = (cs.getD i []).getLast? := by
  intro cs
  induction cs with
  | nil => intro prev h hne i hi; simp at hi
  | cons c cs ih =>
    intro prev h hne i hi
    have hcne : c ≠ [] := hne c (by simp)
    obtain ⟨lastC, hlastC⟩ :=
      Option.isSome_iff_exists.mp (List.getLast?_isSome.mpr hcne)
    have hch : chainOk c.getLast? cs := by
      cases prev with
      | none => exact h
      | some p => exact h.2
    cases i with
    | zero =>
      simp only [List.getD_cons_succ, List.getD_cons_zero]
      simp only [List.length_cons] at hi
      cases cs with
      | nil => simp at hi
      | cons c2 cs2 =>
        rw [hlastC] at hch
        simp only [chainOk] at hch
        simp only [List.getD_cons_zero]
        rw [hch.1, hlastC]
    | succ i =>
      simp only [List.getD_cons_succ]
      exact ih c.getLast? hch (fun x hx => hne x (List.mem_cons_of_mem c hx)) i
        (by simpa using hi)

lemma next_ok_pathDist (dist : DistFn) (s s1 : LimitDistance) (c : List Waypoint)
    (h : s.next dist = (some (Except.ok c), s1)) : ∃ q, pathDist dist c = some q := by
  obtain ⟨ws, m, prev⟩ := s
  cases ws with
  | nil => simp [LimitDistance.next] at h
  | cons first rest =>
    cases prev with
    | some p =>
      cases hd : dist p first with
      | none => simp [LimitDistance.next, hd] at h
      | some d =>
        cases hloop : chunkLoop dist m rest d first [p, first] with
        | mk res rem =>
          cases res with
          | error e => simp [LimitDistance.next, hd, hloop] at h
          | ok out =>
            simp only [LimitDistance.next, hd, hloop, Prod.mk.injEq, Option.some.injEq,
              Except.ok.injEq] at h
            obtain ⟨rfl, -⟩ := h
            obtain ⟨taken, q, -, -, hpath, -, -⟩ :=
              chunkLoop_ok dist m rest d first [p, first] out rem hloop rfl
                (pathDist_pair dist p first d hd)
            exact ⟨q, hpath⟩
    | none =>
      cases hloop : chunkLoop dist m rest 0 first [first] with
      | mk res rem =>
        cases res with
        | error e => simp [LimitDistance.next, hloop] at h
        | ok out =>
          simp only [LimitDistance.next, hloop, Prod.mk.injEq, Option.some.injEq,
            Except.ok.injEq] at h
          obtain ⟨rfl, -⟩ := h
          obtain ⟨taken, q, -, -, hpath, -, -⟩ :=
            chunkLoop_ok dist m rest 0 first [first] out rem hloop rfl rfl
          exact ⟨q, hpath⟩

/-- C1: for every non-empty waypoint sequence and every positive budget,
when every inter-waypoint distance computation succeeds, concatenating all
chunks emitted by the partitioner with each inter-chunk duplicated boundary
waypoint removed once (`concatDedup`) yields exactly the original waypoint
sequence in original order, every waypoint (auxiliary data included)
unchanged. -/
theorem gpxsplit_C1 (dist : DistFn) (m : ℤ) (ws : List Waypoint)
    (hne : ws ≠ []) (hm : 0 < m) (hdist : ∀ a b, (dist a b).isSome) :
    ∃ cs, LimitDistance.run dist ⟨ws, m, none⟩ = Except.ok cs ∧ concatDedup cs = ws := by
  obtain ⟨cs, hrun, htail, -, -, -, -, -, -⟩ :=
    runFuel_spec dist m hdist ws.length ws none le_rfl
  exact ⟨cs, hrun, htail⟩

/-- C2: assuming every distance computation succeeds, every emitted chunk
except the last has accumulated distance — `pathDist`, the sum of
consecutive waypoint-to-waypoint distances across the chunk, the boundary
edge from the carried-over waypoint included — strictly greater than the
budget; only the last chunk may be at or under budget. -/
theorem gpxsplit_C2 (dist : DistFn) (m : ℤ) (ws : List Waypoint)
    (cs : List (List Waypoint)) (hdist : ∀ a b, (dist a b).isSome)
    (hrun : LimitDistance.run dist ⟨ws, m, none⟩ = Except.ok cs) :
    ∀ i, i + 1 < cs.length → ∃ q, pathDist dist (cs.getD i []) = some q ∧ m < q := by
  obtain ⟨cs0, hrun0, -, -, -, -, -, hP2, -⟩ :=
    runFuel_spec dist m hdist ws.length ws none le_rfl
  have hrun1 : runFuel dist ws.length ⟨ws, m, none⟩ = Except.ok cs := hrun
  obtain rfl : cs0 = cs := Except.ok.inj (hrun0.symm.trans hrun1)
  exact hP2

/-- C3: every chunk emitted after the first begins with a waypoint equal by
value to the last waypoint of the immediately preceding chunk, and the very
first chunk begins with the first input waypoint — no duplicated
predecessor point is prepended to it. -/
theorem gpxsplit_C3 (dist : DistFn) (m : ℤ) (ws : List Waypoint)
    (cs : List (List Waypoint)) (hdist : ∀ a b, (dist a b).isSome)
    (hrun : LimitDistance.run dist ⟨ws, m, none⟩ = Except.ok cs) :
    (∀ i, i + 1 < cs.length → (cs.getD (i + 1) []).head? = (cs.getD i []).getLast?) ∧
    (∀ c, cs.head? = some c → c.head? = ws.head?) := by
  obtain ⟨cs0, hrun0, htail, hchain, -, -, hne, -, -⟩ :=
    runFuel_spec dist m hdist ws.length ws none le_rfl
  have hrun1 : runFuel dist ws.length ⟨ws, m, none⟩ = Except.ok cs := hrun
  obtain rfl : cs0 = cs := Except.ok.inj (hrun0.symm.trans hrun1)
  constructor
  · exact chainOk_getD cs0 none hchain hne
  · intro c hc
    cases cs0 with
    | nil => simp at hc
    | cons c0 cs1 =>
      simp only [List.head?_cons, Option.some.injEq] at hc
      subst hc
      have hcne : c0 ≠ [] := hne c0 (by simp)
      simp only [tailJoin, concatDedup] at htail
      cases c0 with
      | nil => exact absurd rfl hcne
      | cons a c2 =>
        rw [← htail]
        simp

/-- C4: each chunk closes at the first waypoint at which its accumulated
distance strictly exceeds the budget (or when input is exhausted): every
proper prefix of a chunk extending past its seed — the starting point of
the first chunk, the carried-over boundary pair of every later one
(`seedLen`) — has accumulated distance at most the budget, i.e. no waypoint
is appended after the accumulated distance has exceeded the budget. -/
theorem gpxsplit_C4 (dist : DistFn) (m : ℤ) (ws : List Waypoint)
    (cs : List (List Waypoint)) (hdist : ∀ a b, (dist a b).isSome)
    (hrun : LimitDistance.run dist ⟨ws, m, none⟩ = Except.ok cs) :
    ∀ i, i < cs.length → ∀ j, seedLen none i < j → j < (cs.getD i []).length →
      ∃ q, pathDist dist ((cs.getD i []).take j) = some q ∧ q ≤ m := by
  obtain ⟨cs0, hrun0, -, -, -, -, -, -, hP4⟩ :=
    runFuel_spec dist m hdist ws.length ws none le_rfl
  have hrun1 : runFuel dist ws.length ⟨ws, m, none⟩ = Except.ok cs := hrun
  obtain rfl : cs0 = cs := Except.ok.inj (hrun0.symm.trans hrun1)
  exact hP4

/-- C5: if any single inter-waypoint distance computation fails during the
production of a chunk, that pull yields the error value, not a waypoint
sequence, and the error propagates to the caller: (1) any pull that yields
a waypoint sequence had every inter-waypoint distance computation of that
chunk succeed (`pathDist` is defined on it), so no partial chunk is ever
emitted; (2) a failure of the carried-over boundary distance makes the
pull yield the error itself; and (3) a failure at any point the
accumulation loop reaches mid-chunk — every earlier edge along
`seedOf prev first ++ taken` succeeded and no proper extension of the seed
had yet exceeded the budget, then the distance to the next upstream
waypoint `w` fails — likewise makes the pull yield the error itself,
discarding the partial chunk built so far. -/
theorem gpxsplit_C5 (dist : DistFn) :
    (∀ (s s1 : LimitDistance) (c : List Waypoint),
      s.next dist = (some (Except.ok c), s1) → ∃ q, pathDist dist c = some q) ∧
    (∀ (first : Waypoint) (rest : List Waypoint) (m : ℤ) (p : Waypoint),
      dist p first = none →
      (⟨first :: rest, m, some p⟩ : LimitDistance).next dist
        = (some (Except.error ()), ⟨rest, m, none⟩)) ∧
    (∀ (m : ℤ) (prev : Option Waypoint) (first : Waypoint) (taken : List Waypoint)
        (w : Waypoint) (rem : List Waypoint) (plast : Waypoint) (qf : ℤ),
      pathDist dist (seedOf prev first ++ taken) = some qf →
      (∀ j, (seedOf prev first).length < j → j ≤ (seedOf prev first ++ taken).length →
        ∃ q, pathDist dist ((seedOf prev first ++ taken).take j) = some q ∧ q ≤ m) →
      (seedOf prev first ++ taken).getLast? = some plast →
      dist plast w = none →
      (⟨first :: (taken ++ w :: rem), m, prev⟩ : LimitDistance).next dist
        = (some (Except.error ()), ⟨rem, m, none⟩)) := by
  refine ⟨fun s s1 c h => next_ok_pathDist dist s s1 c h, ?_, ?_⟩
  · intro first rest m p hd
    simp [LimitDistance.next, hd]
  · intro m prev first taken w rem plast qf hqf hpre hplast hfail
    cases prev with
    | none =>
      simp only [seedOf] at hqf hpre hplast
      have hloop := chunkLoop_fails dist m taken w rem 0 first [first] plast rfl rfl
        hpre hplast hfail
      simp [LimitDistance.next, hloop]
    | some p =>
      simp only [seedOf] at hqf hpre hplast
      cases hd0 : dist p first with
      | none =>
        rw [List.cons_append, List.cons_append] at hqf
        simp [pathDist, hd0] at hqf
      | some d0 =>
        have hloop := chunkLoop_fails dist m taken w rem d0 first [p, first] plast rfl
          (pathDist_pair dist p first d0 hd0) hpre hplast hfail
        simp [LimitDistance.next, hd0, hloop]

/-- C6: a route lacking track 0 makes the run fail with the structure error
message mentioning "track 0"; a route whose track 0 lacks segment 0 makes
it fail mentioning "segment 0"; in both cases the error is raised before
any partitioning begins and the filesystem is unchanged — no output file is
created. -/
theorem gpxsplit_C6 (dist : DistFn) (basename : String) (m : ℤ)
    (fs0 : List (String × List Waypoint)) :
    (∀ gpx : Gpx, gpx.tracks = [] →
      runMain dist gpx basename m fs0 = (some "gpx file missing track 0", fs0) ∧
      ∃ pre post, "gpx file missing track 0" = pre ++ "track 0" ++ post) ∧
    (∀ (gpx : Gpx) (t : Track), gpx.tracks.head? = some t → t.segments = [] →
      runMain dist gpx basename m fs0 = (some "gpx track 0 missing segment 0", fs0) ∧
      ∃ pre post, "gpx track 0 missing segment 0" = pre ++ "segment 0" ++ post) := by
  constructor
  · intro gpx htr
    refine ⟨?_, "gpx file missing ", "", by decide⟩
    simp [runMain, get_segment, get_track, htr]
  · intro gpx t htr hseg
    refine ⟨?_, "gpx track 0 missing ", "", by decide⟩
    simp [runMain, get_segment, get_track, htr, hseg]

/-- C7: an empty input waypoint sequence produces zero chunks, and already
the very first pull of the partitioner signals end of sequence. -/
theorem gpxsplit_C7 (dist : DistFn) (m : ℤ) :
    LimitDistance.run dist ⟨[], m, none⟩ = Except.ok [] ∧
    (⟨[], m, none⟩ : LimitDistance).next dist = (none, ⟨[], m, none⟩) :=
  ⟨rfl, rfl⟩

/-- C8: a 1-waypoint input sequence with any positive budget produces
exactly one chunk, containing exactly that waypoint, with accumulated
distance zero. -/
theorem gpxsplit_C8 (dist : DistFn) (w : Waypoint) (m : ℤ) (hm : 0 < m) :
    LimitDistance.run dist ⟨[w], m, none⟩ = Except.ok [[w]] ∧
    pathDist dist [w] = some 0 :=
  ⟨rfl, rfl⟩

/-- C9: in a fully successful write loop started at index `idx`, the `i`-th
file written is named `fname basename (idx + i + 1)` — that is,
`<basename>_<NN>.gpx` with `NN` the 1-based chunk index zero-padded to at
least two digits (`pad2`) — and when a chunk's target filename already
exists the loop fails with the create error instead of overwriting. -/
theorem gpxsplit_C9 (dist : DistFn) (basename : String) :
    (∀ (fuel idx : ℕ) (fs fsF : List (String × List Waypoint)) (s : LimitDistance),
      mainLoopFuel dist basename fuel idx fs s = (none, fsF) →
      ∃ new, fsF = fs ++ new ∧
        ∀ i, i < new.length → (new.getD i ("", [])).1 = fname basename (idx + i + 1)) ∧
    (∀ (fuel idx : ℕ) (fs : List (String × List Waypoint)) (s s1 : LimitDistance)
        (c : List Waypoint),
      s.next dist = (some (Except.ok c), s1) →
      fname basename (idx + 1) ∈ fs.map Prod.fst →
      mainLoopFuel dist basename (fuel + 1) idx fs s
        = (some ("failed to create file " ++ fname basename (idx + 1)), fs)) := by
  constructor
  · intro fuel
    induction fuel with
    | zero =>
      intro idx fs fsF s h
      simp only [mainLoopFuel, Prod.mk.injEq] at h
      obtain ⟨-, rfl⟩ := h
      exact ⟨[], by simp, by simp⟩
    | succ fuel ih =>
      intro idx fs fsF s h
      cases hnext : s.next dist with
      | mk item s1 =>
        cases item with
        | none =>
          simp only [mainLoopFuel, hnext, Prod.mk.injEq] at h
          obtain ⟨-, rfl⟩ := h
          exact ⟨[], by simp, by simp⟩
        | some r =>
          cases r with
          | error e => simp [mainLoopFuel, hnext] at h
          | ok chunk =>
            simp only [mainLoopFuel, hnext] at h
            by_cases hmem : fname basename (idx + 1) ∈ fs.map Prod.fst
            · rw [if_pos hmem] at h
              simp at h
            · rw [if_neg hmem] at h
              obtain ⟨new, hfsF, hnames⟩ :=
                ih (idx + 1) (fs ++ [(fname basename (idx + 1), chunk)]) fsF s1 h
              refine ⟨(fname basename (idx + 1), chunk) :: new, by simpa using hfsF, ?_⟩
              intro i hi
              cases i with
              | zero => simp
              | succ i =>
                simp only [List.getD_cons_succ]
                have hn := hnames i (by simpa using hi)
                rw [hn]
                congr 1
                omega
  · intro fuel idx fs s s1 c hnext hmem
    simp only [mainLoopFuel, hnext]
    rw [if_pos hmem]

/-- C10: every pull of the partitioner that yields an item (a chunk or an
error) strictly consumes upstream waypoints, hence a run over `n` waypoints
yields at most `n` chunks, and a pull on an exhausted upstream signals end
of sequence leaving the state unchanged — so it keeps doing so forever. -/
theorem gpxsplit_C10 (dist : DistFn) :
    (∀ (s s1 : LimitDistance) (r : Except Unit (List Waypoint)),
      s.next dist = (some r, s1) → s1.waypoints.length < s.waypoints.length) ∧
    (∀ (ws : List Waypoint) (m : ℤ) (cs : List (List Waypoint)),
      (∀ a b, (dist a b).isSome) →
      LimitDistance.run dist ⟨ws, m, none⟩ = Except.ok cs → cs.length ≤ ws.length) ∧
    (∀ (m : ℤ) (p : Option Waypoint),
      (⟨[], m, p⟩ : LimitDistance).next dist = (none, ⟨[], m, p⟩)) := by
  refine ⟨fun s s1 r h => next_consumes dist s s1 r h, ?_, fun m p => rfl⟩
  intro ws m cs hdist hrun
  obtain ⟨cs0, hrun0, -, -, -, hlen, -, -, -⟩ :=
    runFuel_spec dist m hdist ws.length ws none le_rfl
  have hrun1 : runFuel dist ws.length ⟨ws, m, none⟩ = Except.ok cs := hrun
  obtain rfl : cs0 = cs := Except.ok.inj (hrun0.symm.trans hrun1)
  exact hlen

/-- Witness for C1 at a concrete four-waypoint route with unit distances
and budget 1. -/
theorem gpxsplit_C1_witness :
    ∃ cs, LimitDistance.run distOne ⟨[wA, wB, wC, wD], 1, none⟩ = Except.ok cs ∧
      concatDedup cs = [wA, wB, wC, wD] :=
  gpxsplit_C1 distOne 1 [wA, wB, wC, wD] (by decide) (by decide) (fun a b => rfl)

/-- Witness for C2: the run splits into two chunks and the first one
exceeds the budget. -/
theorem gpxsplit_C2_witness :
    ∃ q, pathDist distOne (List.getD [[wA, wB, wC], [wC, wD]] 0 []) = some q ∧ (1 : ℤ) < q :=
  gpxsplit_C2 distOne 1 [wA, wB, wC, wD] [[wA, wB, wC], [wC, wD]] (fun a b => rfl)
    (by decide) 0 (by decide)

/-- Witness for C3: the second chunk starts at the first chunk's last
waypoint, and the first chunk starts at the route's first waypoint. -/
theorem gpxsplit_C3_witness :
    (List.getD [[wA, wB, wC], [wC, wD]] 1 []).head?
      = (List.getD [[wA, wB, wC], [wC, wD]] 0 []).getLast? ∧
    ([wA, wB, wC] : List Waypoint).head? = ([wA, wB, wC, wD] : List Waypoint).head? :=
  ⟨(gpxsplit_C3 distOne 1 [wA, wB, wC, wD] [[wA, wB, wC], [wC, wD]] (fun a b => rfl)
      (by decide)).1 0 (by decide),
   (gpxsplit_C3 distOne 1 [wA, wB, wC, wD] [[wA, wB, wC], [wC, wD]] (fun a b => rfl)
      (by decide)).2 [wA, wB, wC] (by decide)⟩

/-- Witness for C4: the prefix of the first chunk past its seed but short
of its last waypoint is still within budget. -/
theorem gpxsplit_C4_witness :
    ∃ q, pathDist distOne ((List.getD [[wA, wB, wC], [wC, wD]] 0 []).take 2) = some q ∧
      q ≤ (1 : ℤ) :=
  gpxsplit_C4 distOne 1 [wA, wB, wC, wD] [[wA, wB, wC], [wC, wD]] (fun a b => rfl)
    (by decide) 0 (by decide) 2 (by decide) (by decide)

/-- Witness for C5: a successfully emitted chunk has a defined accumulated
distance; a failing boundary distance turns the pull into an error; and a
mid-loop failure (the `wB`-to-`wC` edge of `distCut`, two waypoints into
the chunk and well under the budget of 10) also turns the pull into an
error instead of emitting the partial chunk `[wA, wB]`. -/
theorem gpxsplit_C5_witness :
    (∃ q, pathDist distOne [wA, wB] = some q) ∧
    (⟨[wA], 1, some wB⟩ : LimitDistance).next distNone
      = (some (Except.error ()), ⟨[], 1, none⟩) ∧
    (⟨[wA, wB, wC, wD], 10, none⟩ : LimitDistance).next distCut
      = (some (Except.error ()), ⟨[wD], 10, none⟩) :=
  ⟨(gpxsplit_C5 distOne).1 ⟨[wA, wB], 1, none⟩ ⟨[], 1, some wB⟩ [wA, wB] (by decide),
   (gpxsplit_C5 distNone).2.1 wA [] 1 wB rfl,
   (gpxsplit_C5 distCut).2.2 10 none wA [wB] wC [wD] wB 1 (by decide)
     (fun j hj1 hj2 => by
       have hj : j = 2 := by simp [seedOf] at hj1 hj2; omega
       subst hj
       exact ⟨1, by decide, by decide⟩)
     (by decide) (by decide)⟩

/-- Witness for C6 at a route with no tracks and at a route whose only
track has no segments. -/
theorem gpxsplit_C6_witness :
    (runMain distOne ⟨[]⟩ "route" 1 [] = (some "gpx file missing track 0", []) ∧
      ∃ pre post, "gpx file missing track 0" = pre ++ "track 0" ++ post) ∧
    (runMain distOne ⟨[⟨none, []⟩]⟩ "route" 1 []
        = (some "gpx track 0 missing segment 0", []) ∧
      ∃ pre post, "gpx track 0 missing segment 0" = pre ++ "segment 0" ++ post) :=
  ⟨(gpxsplit_C6 distOne "route" 1 []).1 ⟨[]⟩ rfl,
   (gpxsplit_C6 distOne "route" 1 []).2 ⟨[⟨none, []⟩]⟩ ⟨none, []⟩ rfl rfl⟩

/-- Witness for C8 at a concrete one-waypoint route and budget 1. -/
theorem gpxsplit_C8_witness :
    LimitDistance.run distOne ⟨[wA], 1, none⟩ = Except.ok [[wA]] ∧
    pathDist distOne [wA] = some 0 :=
  gpxsplit_C8 distOne wA 1 (by decide)

/-- Witness for C9: a clean one-chunk run writes `route_01.gpx`, and a run
against a filesystem already holding `route_01.gpx` fails with the create
error. -/
theorem gpxsplit_C9_witness :
    (∃ new, ([("route_01.gpx", [wA])] : List (String × List Waypoint)) = [] ++ new ∧
      ∀ i, i < new.length → (new.getD i ("", [])).1 = fname "route" (0 + i + 1)) ∧
    mainLoopFuel distOne "route" 1 0 [("route_01.gpx", [wA])] ⟨[wA], 1, none⟩
      = (some ("failed to create file " ++ fname "route" (0 + 1)),
         [("route_01.gpx", [wA])]) :=
  ⟨(gpxsplit_C9 distOne "route").1 1 0 [] [("route_01.gpx", [wA])] ⟨[wA], 1, none⟩
      (by decide),
   (gpxsplit_C9 distOne "route").2 0 0 [("route_01.gpx", [wA])] ⟨[wA], 1, none⟩
      ⟨[], 1, some wA⟩ [wA] (by decide) (by decide)⟩

/-- Witness for C10: a yielding pull strictly shrinks the upstream, and a
concrete four-waypoint run yields at most four chunks. -/
theorem gpxsplit_C10_witness :
    (⟨[], 1, some wA⟩ : LimitDistance).waypoints.length
      < (⟨[wA], 1, none⟩ : LimitDistance).waypoints.length ∧
    ([[wA, wB, wC], [wC, wD]] : List (List Waypoint)).length
      ≤ ([wA, wB, wC, wD] : List Waypoint).length :=
  ⟨(gpxsplit_C10 distOne).1 ⟨[wA], 1, none⟩ ⟨[], 1, some wA⟩ (Except.ok [wA]) (by decide),
   (gpxsplit_C10 distOne).2.1 [wA, wB, wC, wD] 1 [[wA, wB, wC], [wC, wD]]
     (fun a b => rfl) (by decide)⟩
